import Mathlib

/-!
# Verification of the LRU cache engine of RebellioN-YonG/Distributed-Cache

This file gives a shallow embedding, in Lean 4, of the single-node LRU
cache engine implemented in the repository (package `store`, file holding
`lruCache`), together with the `NewStore` factory of `src/store/store.go`,
and proves/refutes the specification claims about them.

Modelling conventions:

* Go's `Value` interface (anything with `Len() int`) becomes a structure
  carrying an identifying payload `data` and a fixed non-negative size
  `len`.  The Go `int`/`int64` arithmetic on byte counters is modelled
  with `Int` (no overflow is reachable at realistic sizes).
* The doubly linked `list.List` plus the `items` map of the Go struct are
  modelled as one `List Entry`, head = front = least-recently-used end,
  last = back = most-recently-used end; the `items` map lookup is
  `List.find?` by key.  The `expires` map is an association list
  `List (String × Int)` with map deletion modelled as `List.filter`
  (a Go map holds each key at most once, so filtering is exactly `delete`).
* `time.Time` / `time.Duration` become `Int` instants/durations; each
  operation that calls `time.Now()` takes the current instant `now` as an
  explicit parameter.  `now.After(expire)` is the strict `now > expire`.
* The eviction callback `onEvicted` is modelled by a flag `hasOnEvicted`
  plus an explicit log (`CB`) of the `(key, value)` invocations an
  operation performs, in order.
* `go c.Delete(key)` inside `Get` (an asynchronous, fire-and-forget
  removal) is modelled by returning the key in a `pendingDelete` field:
  the spawned goroutine has *not* run when `Get` returns.
* The unguarded capacity loop of `evict` can spin forever (empty list
  while `usedBytes > maxBytes > 0`); it is embedded with explicit fuel,
  `none` meaning the loop does not terminate.  Fuel `lru.length + 1`
  decides termination exactly, because once the list is empty the state
  never changes again.
* The concurrency apparatus of the struct (mutex, cleanup ticker,
  goroutine, close channel) is not representable in a sequential shallow
  embedding; operations are modelled as the sequential executions the
  locks serialize.
-/

/-- A stored value: the Go `Value` interface exposes only `Len() int`;
`data` distinguishes distinct values of equal size. -/
structure Value where
  data : Nat
  len : Nat
deriving DecidableEq

/-- One entry of the recency list (`lruEntry` in the source). -/
structure Entry where
  key : String
  value : Value
deriving DecidableEq

/-- Callback log: the `(key, value)` pairs passed to `onEvicted`, in order. -/
abbrev CB := List (String × Value)

/-- The state of an `lruCache` (source struct `lruCache`): the recency
list (head = LRU end, back = MRU end, with the `items` map implicit as
lookup-by-key), the expiration map as an association list, the byte
bounds, and whether an eviction callback is configured. -/
structure CacheState where
  lru : List Entry
  expires : List (String × Int)
  maxBytes : Int
  usedBytes : Int
  hasOnEvicted : Bool
deriving DecidableEq

namespace LruCache

/-- Accounted size of one entry: `len(entry.key) + entry.value.Len()`
(Go `len` on a string counts bytes). -/
def entrySize (e : Entry) : Int :=
  (e.key.utf8ByteSize : Int) + (e.value.len : Int)

/-- Sum of accounted sizes of a list of entries. -/
def sizeSum (l : List Entry) : Int :=
  (l.map entrySize).sum

/-- `c.items[key]` of the source: the unique list element holding `key`. -/
def findEntry (key : String) (l : List Entry) : Option Entry :=
  l.find? (fun e => e.key == key)

/-- Map update `c.expires[key] = t` (delete any old binding, add the new). -/
def expiresInsert (key : String) (t : Int) (l : List (String × Int)) :
    List (String × Int) :=
  (key, t) :: l.filter (fun kv => !(kv.1 == key))

/-- Map deletion `delete(c.expires, key)`. -/
def expiresRemove (key : String) (l : List (String × Int)) :
    List (String × Int) :=
  l.filter (fun kv => !(kv.1 == key))

/-- `c.lru.MoveToFront(elem)` for the element holding `key`. -/
def moveToFront (key : String) (l : List Entry) : List Entry :=
  match findEntry key l with
  | some e => e :: l.eraseP (fun x => x.key == key)
  | none => l

/-- `c.lru.MoveToBack(elem)` for the element holding `key`. -/
def moveToBack (key : String) (l : List Entry) : List Entry :=
  match findEntry key l with
  | some e => l.eraseP (fun x => x.key == key) ++ [e]
  | none => l

/-- `lruCache.removeElement`, identifiying the element by its key (every
live key has exactly one element): unlink from the recency list, delete
from `items` (implicit) and `expires`, subtract the accounted size, and
invoke the eviction callback if configured. -/
def removeElement (key : String) (s : CacheState) : CacheState × CB :=
  match findEntry key s.lru with
  | none => (s, [])
  | some e =>
    ({ s with
        lru := s.lru.eraseP (fun x => x.key == key),
        expires := expiresRemove key s.expires,
        usedBytes := s.usedBytes - entrySize e },
     if s.hasOnEvicted then [(e.key, e.value)] else [])

/-- One iteration of the expiration pass of `lruCache.evict`: remove the
visited key if its expiry is strictly in the past. -/
def expireStep (now : Int) (acc : CacheState × CB) (kv : String × Int) :
    CacheState × CB :=
  if now > kv.2 then
    let r := removeElement kv.1 acc.1
    (r.1, acc.2 ++ r.2)
  else acc

/-- The expiration pass of `lruCache.evict`: scan the (snapshot of the)
expiration map and remove every entry whose expiry is strictly in the
past.  `now` is read once before the loop, as in the source. -/
def expirePass (now : Int) (s : CacheState) : CacheState × CB :=
  s.expires.foldl (expireStep now) (s, [])

/-- The capacity pass of `lruCache.evict`, with explicit fuel:

    for c.maxBytes > 0 && c.usedBytes > c.maxBytes {
        elem := c.lru.Front()
        if elem != nil { c.removeElement(elem) }
    }

When the list is empty and the budget is still exceeded the source loop
runs forever doing nothing; here that shows up as the fuel running out
with the guard still true, i.e. a `none` result. -/
def capacityLoop : Nat → CacheState → Option (CacheState × CB)
  | 0, s =>
    if s.maxBytes > 0 ∧ s.usedBytes > s.maxBytes then none else some (s, [])
  | fuel + 1, s =>
    if s.maxBytes > 0 ∧ s.usedBytes > s.maxBytes then
      match s.lru with
      | [] => capacityLoop fuel s
      | e :: _ =>
        let r := removeElement e.key s
        match capacityLoop fuel r.1 with
        | none => none
        | some (s', cb') => some (s', r.2 ++ cb')
    else some (s, [])

/-- `lruCache.evict`: expiration pass, then the capacity pass.  Fuel
`length + 1` decides termination of the source loop exactly: each
productive iteration removes the front element, and once the list is
empty the state is fixed, so either the guard fails within `length`
removals or it never fails. -/
def evict (now : Int) (s : CacheState) : Option (CacheState × CB) :=
  let r := expirePass now s
  match capacityLoop (r.1.lru.length + 1) r.1 with
  | none => none
  | some (s', cb') => some (s', r.2 ++ cb')

/-- `lruCache.Delete`: remove the key if present, reporting whether it
was found, with the callback invocations performed. -/
def Delete (key : String) (s : CacheState) : CacheState × Bool × CB :=
  match findEntry key s.lru with
  | some _ =>
    let r := removeElement key s
    (r.1, true, r.2)
  | none => (s, false, [])

/-- Result of `lruCache.Get`: the value and found flag, the state when
`Get` returns, and the key of the `go c.Delete(key)` goroutine spawned
for an expired entry (which has not yet run when `Get` returns). -/
structure GetResult where
  value : Option Value
  found : Bool
  state : CacheState
  pendingDelete : Option String
deriving DecidableEq

/-- `lruCache.Get`: miss returns `(nil, false)`; an entry whose expiry is
strictly past returns `(nil, false)` and spawns an asynchronous delete;
otherwise the value is returned and the element is moved with
`MoveToFront`. -/
def Get (now : Int) (key : String) (s : CacheState) : GetResult :=
  match findEntry key s.lru with
  | none => ⟨none, false, s, none⟩
  | some e =>
    match s.expires.lookup key with
    | some expire =>
      if now > expire then ⟨none, false, s, some key⟩
      else ⟨some e.value, true, { s with lru := moveToFront key s.lru }, none⟩
    | none => ⟨some e.value, true, { s with lru := moveToFront key s.lru }, none⟩

/-- `lruCache.SetWithExpiration`.  A `none` value is a delete signal.
Otherwise the expiration map is rewritten wholesale, then: existing key →
in-place value update, size-delta accounting, `MoveToBack`, and *return
without evicting*; new key → `PushBack`, full-size accounting, then
`evict`.  `none` overall means the eviction loop did not terminate. -/
def SetWithExpiration (now : Int) (key : String) (value : Option Value)
    (expiration : Int) (s : CacheState) : Option (CacheState × CB) :=
  match value with
  | none =>
    let r := Delete key s
    some (r.1, r.2.2)
  | some v =>
    let s1 : CacheState :=
      { s with
          expires :=
            if expiration > 0 then expiresInsert key (now + expiration) s.expires
            else expiresRemove key s.expires }
    match findEntry key s1.lru with
    | some old =>
      some ({ s1 with
                lru := s1.lru.eraseP (fun e => e.key == key) ++ [⟨key, v⟩],
                usedBytes := s1.usedBytes + ((v.len : Int) - (old.value.len : Int)) },
            [])
    | none =>
      let s2 : CacheState :=
        { s1 with
            lru := s1.lru ++ [⟨key, v⟩],
            usedBytes := s1.usedBytes + ((key.utf8ByteSize : Int) + (v.len : Int)) }
      evict now s2

/-- `lruCache.Set`: `SetWithExpiration` with zero duration. -/
def Set (now : Int) (key : String) (value : Option Value) (s : CacheState) :
    Option (CacheState × CB) :=
  SetWithExpiration now key value 0 s

/-- `lruCache.Clear`: invoke the callback once per live entry if
configured, then reset every index and `usedBytes`. -/
def Clear (s : CacheState) : CacheState × CB :=
  ({ s with lru := [], expires := [], usedBytes := 0 },
   if s.hasOnEvicted then s.lru.map (fun e => (e.key, e.value)) else [])

/-- `lruCache.Len`: length of the recency list. -/
def Len (s : CacheState) : Nat :=
  s.lru.length

/-- `lruCache.GetWithExpiration`: like `Get` but returning the remaining
TTL; an expired entry returns `(nil, 0, false)` with *no* removal of any
kind; a hit moves the element with `MoveToBack`. -/
def GetWithExpiration (now : Int) (key : String) (s : CacheState) :
    (Option Value × Int × Bool) × CacheState :=
  match findEntry key s.lru with
  | none => ((none, 0, false), s)
  | some e =>
    match s.expires.lookup key with
    | some expire =>
      if now > expire then ((none, 0, false), s)
      else ((some e.value, expire - now, true),
            { s with lru := moveToBack key s.lru })
    | none => ((some e.value, 0, true), { s with lru := moveToBack key s.lru })

/-- `lruCache.UpdateExpiration`: absent key → `false`, nothing changes;
present key → rewrite (positive duration) or delete (otherwise) the
expiration entry and return `true`. -/
def UpdateExpiration (now : Int) (key : String) (expiration : Int)
    (s : CacheState) : CacheState × Bool :=
  match findEntry key s.lru with
  | none => (s, false)
  | some _ =>
    if expiration > 0 then
      ({ s with expires := expiresInsert key (now + expiration) s.expires }, true)
    else
      ({ s with expires := expiresRemove key s.expires }, true)

/-- `lruCache.SetMaxBytes`: install the new ceiling and, if it is
positive, run eviction immediately. -/
def SetMaxBytes (now : Int) (max : Int) (s : CacheState) :
    Option (CacheState × CB) :=
  let s1 := { s with maxBytes := max }
  if max > 0 then evict now s1 else some (s1, [])

end LruCache

/-- Configuration bundle (`store.Options`); the callback field is
modelled by whether one is set. -/
structure Options where
  MaxBytes : Int
  BucketCnt : Nat
  CapPerBucket : Nat
  Level2Cap : Nat
  CleanupInterval : Int
  hasOnEvicted : Bool
deriving DecidableEq

/-- `store.NewOptions` defaults (8 KiB budget, one-minute interval in
nanoseconds, no callback). -/
def NewOptions : Options :=
  ⟨8 * 1024, 16, 512, 256, 60000000000, false⟩

/-- `newLRUCache`: the freshly constructed engine state — empty indexes,
zero used bytes, the configured budget and callback.  (The cleanup
ticker/goroutine the constructor also starts is concurrency apparatus
outside the sequential state.) -/
def newLRUCache (opts : Options) : CacheState :=
  ⟨[], [], opts.MaxBytes, 0, opts.hasOnEvicted⟩

/-- Policy tags (`store.CacheType`). -/
inductive CacheType where
  | LRU
  | LRU2
deriving DecidableEq

/-- `store.NewStore` exactly as written in `src/store/store.go`: every
branch — including the `LRU` one — returns `nil` (`none` here); the
constructor calls are commented out in the source:

    case LRU:
        // return newLRUCache(opts)
        return nil
-/
def NewStore (cacheType : CacheType) (_opts : Options) : Option CacheState :=
  match cacheType with
  | .LRU => none
  | .LRU2 => none

/-- One API call of the sequences claim C4 quantifies over. -/
inductive Op where
  | set (now : Int) (key : String) (value : Option Value)
  | setX (now : Int) (key : String) (value : Option Value) (expiration : Int)
  | del (key : String)
deriving DecidableEq

/-- Execute one call (callback log dropped). -/
def applyOp (s : CacheState) : Op → Option CacheState
  | .set now key v => (LruCache.Set now key v s).map (·.1)
  | .setX now key v exp => (LruCache.SetWithExpiration now key v exp s).map (·.1)
  | .del key => some (LruCache.Delete key s).1

/-- Execute a sequence of calls from a state. -/
def runOps : List Op → CacheState → Option CacheState
  | [], s => some s
  | op :: ops, s => (applyOp s op).bind (runOps ops)

/-- Well-formedness the source maintains: live keys are pairwise distinct
and `usedBytes` is the exact sum of accounted sizes. -/
def WF (s : CacheState) : Prop :=
  (s.lru.map Entry.key).Nodup ∧ s.usedBytes = LruCache.sizeSum s.lru

namespace LruCache

theorem sizeSum_nil : sizeSum [] = 0 := rfl

theorem sizeSum_cons (e : Entry) (l : List Entry) :
    sizeSum (e :: l) = entrySize e + sizeSum l := by
  simp [sizeSum]

theorem sizeSum_append (l₁ l₂ : List Entry) :
    sizeSum (l₁ ++ l₂) = sizeSum l₁ + sizeSum l₂ := by
  simp [sizeSum]

/-- Removing the first match of `p` lowers the size sum by the size of
the matched element (which `find?` returns). -/
theorem sizeSum_eraseP {p : Entry → Bool} :
    ∀ {l : List Entry} {e : Entry}, l.find? p = some e →
      sizeSum (l.eraseP p) + entrySize e = sizeSum l := by
  intro l
  induction l with
  | nil => intro e h; simp [List.find?] at h
  | cons a l ih =>
    intro e h
    cases hpa : p a with
    | true =>
      rw [List.find?_cons_of_pos _ hpa, Option.some_inj] at h
      subst h
      simp [List.eraseP_cons, hpa, sizeSum_cons]
      ring
    | false =>
      rw [List.find?_cons_of_neg _ (by simp [hpa])] at h
      have := ih h
      simp only [List.eraseP_cons, hpa, cond_false, sizeSum_cons]
      omega

/-- Erasure keeps key lists duplicate-free. -/
theorem keys_nodup_eraseP (p : Entry → Bool) {l : List Entry}
    (h : (l.map Entry.key).Nodup) : ((l.eraseP p).map Entry.key).Nodup :=
  h.sublist ((List.eraseP_sublist (p := p) l).map Entry.key)

/-- Under duplicate-free keys, erasing the unique entry holding `k`
leaves a list without `k`. -/
theorem key_not_mem_keys_eraseP {k : String} :
    ∀ {l : List Entry}, (l.map Entry.key).Nodup →
      (∃ e, l.find? (fun x => x.key == k) = some e) →
      k ∉ (l.eraseP (fun x => x.key == k)).map Entry.key := by
  intro l
  induction l with
  | nil => intro _ hf; obtain ⟨e, hf⟩ := hf; simp [List.find?] at hf
  | cons a l ih =>
    intro hnd hf
    rw [List.map_cons, List.nodup_cons] at hnd
    obtain ⟨hna, hndl⟩ := hnd
    cases hpa : (a.key == k) with
    | true =>
      have hak : a.key = k := by simpa using hpa
      simp only [List.eraseP_cons, hpa, cond_true]
      subst hak
      exact hna
    | false =>
      have hak : a.key ≠ k := by simpa using hpa
      obtain ⟨e, hfe⟩ := hf
      rw [List.find?_cons_of_neg _ (by simp [hpa])] at hfe
      simp only [List.eraseP_cons, hpa, cond_false, List.map_cons,
        List.mem_cons, not_or]
      exact ⟨fun hk => hak hk.symm, ih hndl ⟨e, hfe⟩⟩

/-- Looking up a key in a list filtered to exclude it yields nothing. -/
theorem lookup_filter_self_none (k : String) :
    ∀ l : List (String × Int),
      (l.filter (fun kv => !(kv.1 == k))).lookup k = none := by
  intro l
  induction l with
  | nil => rfl
  | cons a l ih =>
    cases hpa : (a.1 == k) with
    | true => simpa [List.filter_cons, hpa] using ih
    | false =>
      have : (k == a.1) = false := by
        have hne : a.1 ≠ k := by simpa using hpa
        simpa using fun h => hne h.symm
      simp [List.filter_cons, hpa, List.lookup, this, ih]

theorem removeElement_maxBytes (key : String) (s : CacheState) :
    (removeElement key s).1.maxBytes = s.maxBytes := by
  unfold removeElement
  cases hf : findEntry key s.lru <;> simp

theorem removeElement_wf {s : CacheState} (key : String) (h : WF s) :
    WF (removeElement key s).1 := by
  obtain ⟨hnd, hsum⟩ := h
  cases hf : findEntry key s.lru with
  | none => simp only [removeElement, hf]; exact ⟨hnd, hsum⟩
  | some e =>
    simp only [removeElement, hf]
    refine ⟨keys_nodup_eraseP _ hnd, ?_⟩
    have := sizeSum_eraseP (p := fun x => x.key == key) hf
    simp only
    omega

theorem expireStep_wf (now : Int) (acc : CacheState × CB) (kv : String × Int)
    (h : WF acc.1) :
    WF (expireStep now acc kv).1 ∧
      (expireStep now acc kv).1.maxBytes = acc.1.maxBytes := by
  unfold expireStep
  split
  · exact ⟨removeElement_wf _ h, removeElement_maxBytes _ _⟩
  · exact ⟨h, rfl⟩

theorem foldl_expireStep_wf (now : Int) :
    ∀ (l : List (String × Int)) (acc : CacheState × CB), WF acc.1 →
      WF (l.foldl (expireStep now) acc).1 ∧
        (l.foldl (expireStep now) acc).1.maxBytes = acc.1.maxBytes := by
  intro l
  induction l with
  | nil => intro acc h; exact ⟨h, rfl⟩
  | cons kv l ih =>
    intro acc h
    have hstep := expireStep_wf now acc kv h
    have := ih (expireStep now acc kv) hstep.1
    simpa [List.foldl_cons] using ⟨this.1, this.2.trans hstep.2⟩

theorem expirePass_wf {s : CacheState} (now : Int) (h : WF s) :
    WF (expirePass now s).1 ∧ (expirePass now s).1.maxBytes = s.maxBytes :=
  foldl_expireStep_wf now s.expires (s, []) h

/-- On well-formed states the capacity pass terminates within the fuel
the embedding allots, preserves well-formedness and the budget, and (when
a positive budget is set) enforces it. -/
theorem capacityLoop_wf :
    ∀ (fuel : Nat) (s : CacheState), WF s → s.lru.length < fuel →
      ∃ s' cb, capacityLoop fuel s = some (s', cb) ∧ WF s' ∧
        s'.maxBytes = s.maxBytes ∧
        (s.maxBytes > 0 → s'.usedBytes ≤ s.maxBytes) := by
  intro fuel
  induction fuel with
  | zero => intro s _ h; exact absurd h (Nat.not_lt_zero _)
  | succ fuel ih =>
    intro s hwf hlen
    by_cases hg : s.maxBytes > 0 ∧ s.usedBytes > s.maxBytes
    · obtain ⟨hnd, hsum⟩ := hwf
      cases hl : s.lru with
      | nil =>
        exfalso
        rw [hl] at hsum
        simp [sizeSum] at hsum
        omega
      | cons e rest =>
        have hfind : findEntry e.key s.lru = some e := by
          rw [hl]
          simp [findEntry, List.find?]
        have hlru2 : (removeElement e.key s).1.lru = rest := by
          simp only [removeElement, hfind]
          rw [hl]
          simp [List.eraseP_cons]
        have hwf2 : WF (removeElement e.key s).1 :=
          removeElement_wf _ ⟨hnd, hsum⟩
        have hlen2 : (removeElement e.key s).1.lru.length < fuel := by
          rw [hlru2]
          rw [hl] at hlen
          simpa using Nat.lt_of_succ_lt_succ hlen
        obtain ⟨s', cb, hcl, hwf', hmax', hbound⟩ :=
          ih (removeElement e.key s).1 hwf2 hlen2
        refine ⟨s', (removeElement e.key s).2 ++ cb, ?_, hwf', ?_, ?_⟩
        · unfold capacityLoop
          rw [if_pos hg, hl]
          have hfind2 : findEntry e.key s.lru = some e := hfind
          simp only [hcl]
        · rw [hmax', removeElement_maxBytes]
        · intro h0
          have := hbound (by rw [removeElement_maxBytes]; exact h0)
          rwa [removeElement_maxBytes] at this
    · refine ⟨s, [], ?_, hwf, rfl, ?_⟩
      · unfold capacityLoop
        rw [if_neg hg]
      · intro h0
        by_contra hlt
        exact hg ⟨h0, by omega⟩

theorem evict_wf {s : CacheState} (now : Int) (h : WF s) :
    ∃ s' cb, evict now s = some (s', cb) ∧ WF s' ∧
      s'.maxBytes = s.maxBytes ∧
      (s.maxBytes > 0 → s'.usedBytes ≤ s.maxBytes) := by
  obtain ⟨hep, hmax⟩ := expirePass_wf now h
  obtain ⟨s', cb, hcl, hwf', hmax', hbound⟩ :=
    capacityLoop_wf ((expirePass now s).1.lru.length + 1) (expirePass now s).1
      hep (Nat.lt_succ_self _)
  refine ⟨s', (expirePass now s).2 ++ cb, ?_, hwf', hmax'.trans hmax, ?_⟩
  · unfold evict
    simp only [hcl]
  · intro h0
    have := hbound (by rw [hmax]; exact h0)
    rwa [hmax] at this

end LruCache

namespace LruCache

theorem Delete_wf {s : CacheState} (key : String) (h : WF s) :
    WF (Delete key s).1 := by
  unfold Delete
  cases hf : findEntry key s.lru with
  | none => exact h
  | some e => exact removeElement_wf key h

/-- Inserting a fresh key: the call returns, its eviction pass runs, and
on well-formed states the result is well-formed, keeps the budget, and
respects it when positive. -/
theorem SetWithExpiration_insert_spec {s : CacheState} (now : Int)
    (key : String) (v : Value) (expiration : Int) (h : WF s)
    (habs : findEntry key s.lru = none) :
    ∃ s' cb, SetWithExpiration now key (some v) expiration s = some (s', cb) ∧
      WF s' ∧ s'.maxBytes = s.maxBytes ∧
      (s.maxBytes > 0 → s'.usedBytes ≤ s.maxBytes) := by
  obtain ⟨hnd, hsum⟩ := h
  have hkey : key ∉ s.lru.map Entry.key := by
    intro hmem
    obtain ⟨e, hmem, hek⟩ := List.mem_map.mp hmem
    have := List.find?_eq_none.mp habs e hmem
    simp [hek] at this
  set s2 : CacheState :=
    { s with
        expires :=
          if expiration > 0 then expiresInsert key (now + expiration) s.expires
          else expiresRemove key s.expires,
        lru := s.lru ++ [⟨key, v⟩],
        usedBytes := s.usedBytes + ((key.utf8ByteSize : Int) + (v.len : Int)) }
    with hs2
  have hwf2 : WF s2 := by
    constructor
    · rw [hs2]
      simp only [List.map_append, List.map_cons, List.map_nil]
      rw [List.nodup_append]
      exact ⟨hnd, List.nodup_singleton key, by
        intro a ha hb
        simp only [List.mem_singleton] at hb
        subst hb
        exact hkey ha⟩
    · rw [hs2]
      simp only [sizeSum_append]
      have : sizeSum [⟨key, v⟩] = (key.utf8ByteSize : Int) + (v.len : Int) := by
        simp [sizeSum, entrySize]
      omega
  obtain ⟨s', cb, hev, hwf', hmax', hbound⟩ := evict_wf now hwf2
  refine ⟨s', cb, ?_, hwf', by rw [hmax'], fun h0 => hbound (by exact h0)⟩
  simp only [SetWithExpiration, habs]
  exact hev

theorem SetWithExpiration_wf {s : CacheState} (now : Int) (key : String)
    (value : Option Value) (expiration : Int) (h : WF s) :
    ∃ s' cb, SetWithExpiration now key value expiration s = some (s', cb) ∧
      WF s' := by
  cases value with
  | none => exact ⟨(Delete key s).1, (Delete key s).2.2, rfl, Delete_wf key h⟩
  | some v =>
    cases hf : findEntry key s.lru with
    | none =>
      obtain ⟨s', cb, hev, hwf', _, _⟩ :=
        SetWithExpiration_insert_spec now key v expiration h hf
      exact ⟨s', cb, hev, hwf'⟩
    | some old =>
      obtain ⟨hnd, hsum⟩ := h
      have hok : old.key = key := by
        have := List.find?_some hf
        simpa using this
      refine ⟨{ s with
          expires :=
            if expiration > 0 then expiresInsert key (now + expiration) s.expires
            else expiresRemove key s.expires,
          lru := s.lru.eraseP (fun e => e.key == key) ++ [⟨key, v⟩],
          usedBytes := s.usedBytes + ((v.len : Int) - (old.value.len : Int)) },
        [], ?_, ?_⟩
      · simp only [SetWithExpiration, hf]
      · constructor
        · simp only [List.map_append, List.map_cons, List.map_nil]
          rw [List.nodup_append]
          refine ⟨keys_nodup_eraseP _ hnd, List.nodup_singleton key, ?_⟩
          intro a ha hb
          simp only [List.mem_singleton] at hb
          subst hb
          exact key_not_mem_keys_eraseP hnd ⟨old, hf⟩ ha
        · have herase := sizeSum_eraseP (p := fun x => x.key == key) hf
          have hsz : entrySize old =
              (key.utf8ByteSize : Int) + (old.value.len : Int) := by
            rw [entrySize, hok]
          have hnew : sizeSum [⟨key, v⟩] =
              (key.utf8ByteSize : Int) + (v.len : Int) := by
            simp [sizeSum, entrySize]
          simp only [sizeSum_append]
          omega

end LruCache

/-- Each of the calls claim C4 ranges over returns and preserves
well-formedness. -/
theorem applyOp_wf {s : CacheState} (op : Op) (h : WF s) :
    ∃ s', applyOp s op = some s' ∧ WF s' := by
  cases op with
  | set now key v =>
    obtain ⟨s', cb, heq, hwf⟩ := LruCache.SetWithExpiration_wf now key v 0 h
    exact ⟨s', by simp [applyOp, LruCache.Set, heq], hwf⟩
  | setX now key v exp =>
    obtain ⟨s', cb, heq, hwf⟩ := LruCache.SetWithExpiration_wf now key v exp h
    exact ⟨s', by simp [applyOp, heq], hwf⟩
  | del key => exact ⟨_, rfl, LruCache.Delete_wf key h⟩

theorem runOps_wf :
    ∀ (ops : List Op) (s : CacheState), WF s →
      ∃ s', runOps ops s = some s' ∧ WF s' := by
  intro ops
  induction ops with
  | nil => intro s h; exact ⟨s, rfl, h⟩
  | cons op ops ih =>
    intro s h
    obtain ⟨s1, h1, hwf1⟩ := applyOp_wf op h
    obtain ⟨s', h2, hwf'⟩ := ih s1 hwf1
    exact ⟨s', by simp [runOps, h1, h2], hwf'⟩

theorem newLRUCache_wf (opts : Options) : WF (newLRUCache opts) :=
  ⟨List.nodup_nil, rfl⟩

/-- C1: the spec says a successful Get moves the looked-up entry to the
most-recently-used end, so that after inserting A, B, C and calling
Get(A), a capacity drop forcing exactly one eviction removes B.  The
code's `Get` instead calls `MoveToFront`, the eviction-candidate end
(every other path treats the back as most-recently-used), so in that very
scenario the evicted key is A: after `SetMaxBytes 10` the surviving keys
are B and C. -/
theorem C1_get_touch_does_not_protect_entry :
    runOps
        [Op.set 0 "A" (some ⟨1, 4⟩), Op.set 1 "B" (some ⟨2, 4⟩),
          Op.set 2 "C" (some ⟨3, 4⟩)]
        (newLRUCache ⟨0, 16, 512, 256, 60000000000, false⟩) =
      some ⟨[⟨"A", ⟨1, 4⟩⟩, ⟨"B", ⟨2, 4⟩⟩, ⟨"C", ⟨3, 4⟩⟩], [], 0, 15, false⟩ ∧
    LruCache.Get 3 "A"
        ⟨[⟨"A", ⟨1, 4⟩⟩, ⟨"B", ⟨2, 4⟩⟩, ⟨"C", ⟨3, 4⟩⟩], [], 0, 15, false⟩ =
      ⟨some ⟨1, 4⟩, true,
        ⟨[⟨"A", ⟨1, 4⟩⟩, ⟨"B", ⟨2, 4⟩⟩, ⟨"C", ⟨3, 4⟩⟩], [], 0, 15, false⟩,
        none⟩ ∧
    LruCache.SetMaxBytes 4 10
        ⟨[⟨"A", ⟨1, 4⟩⟩, ⟨"B", ⟨2, 4⟩⟩, ⟨"C", ⟨3, 4⟩⟩], [], 0, 15, false⟩ =
      some (⟨[⟨"B", ⟨2, 4⟩⟩, ⟨"C", ⟨3, 4⟩⟩], [], 10, 10, false⟩, []) ∧
    (⟨[⟨"B", ⟨2, 4⟩⟩, ⟨"C", ⟨3, 4⟩⟩], [], 10, 10, false⟩ : CacheState).lru.map
        Entry.key = ["B", "C"] :=
  ⟨by decide, by decide, by decide, by decide⟩

/-- C2, counterexample: updating an existing key returns without running
eviction, so a Set that grows the value of a present key leaves
`usedBytes > maxBytes` when the call returns — insert "a" (size 4) into a
budget-10 cache, then Set "a" again with size 20: the final state has
`usedBytes = 21 > 10 = maxBytes`. -/
theorem C2_counterexample_update_skips_eviction :
    runOps [Op.set 0 "a" (some ⟨1, 4⟩), Op.set 1 "a" (some ⟨2, 20⟩)]
        (newLRUCache ⟨10, 16, 512, 256, 60000000000, false⟩) =
      some ⟨[⟨"a", ⟨2, 20⟩⟩], [], 10, 21, false⟩ ∧
    (⟨[⟨"a", ⟨2, 20⟩⟩], [], 10, 21, false⟩ : CacheState).usedBytes >
      (⟨[⟨"a", ⟨2, 20⟩⟩], [], 10, 21, false⟩ : CacheState).maxBytes :=
  ⟨by decide, by decide⟩

/-- C2, amended: eviction runs only on the insert path.  For every
well-formed state with a positive budget, a Set/SetWithExpiration that
inserts a key not currently present returns with
`usedBytes <= maxBytes`. -/
theorem C2_set_insert_respects_budget (now : Int) (key : String) (v : Value)
    (expiration : Int) (s : CacheState) (h : WF s) (hmax : 0 < s.maxBytes)
    (habs : LruCache.findEntry key s.lru = none) :
    ∃ s' cb, LruCache.SetWithExpiration now key (some v) expiration s =
      some (s', cb) ∧ s'.usedBytes ≤ s'.maxBytes := by
  obtain ⟨s', cb, heq, _, hmb, hb⟩ :=
    LruCache.SetWithExpiration_insert_spec now key v expiration h habs
  exact ⟨s', cb, heq, by rw [hmb]; exact hb hmax⟩

/-- Witness for C2 (amended) at a concrete input: inserting "a" of size 4
into a fresh budget-10 cache. -/
theorem C2_set_insert_respects_budget_witness :
    ∃ s' cb, LruCache.SetWithExpiration 0 "a" (some ⟨1, 4⟩) 0
        (newLRUCache ⟨10, 16, 512, 256, 60000000000, false⟩) =
      some (s', cb) ∧ s'.usedBytes ≤ s'.maxBytes :=
  C2_set_insert_respects_budget 0 "a" ⟨1, 4⟩ 0 _ ⟨by decide, rfl⟩ (by decide)
    (by decide)

/-- C3: the spec says the capacity pass stops when the Recency Index is
empty even if `usedBytes > maxBytes`.  The source loop

    for c.maxBytes > 0 && c.usedBytes > c.maxBytes {
        elem := c.lru.Front()
        if elem != nil { c.removeElement(elem) }
    }

never stops on such a state: with an empty list and `usedBytes = 5 >
1 = maxBytes` the body does nothing and the guard stays true, so no
amount of fuel makes the loop finish. -/
theorem C3_capacity_pass_spins_on_empty_index (fuel : Nat) :
    LruCache.capacityLoop fuel ⟨[], [], 1, 5, false⟩ = none := by
  induction fuel with
  | zero => decide
  | succ n ih =>
    unfold LruCache.capacityLoop
    rw [if_pos (by decide)]
    exact ih

/-- C4: starting from a fresh engine with any configuration, after every
sequence of Set, SetWithExpiration and Delete calls each call returns and
`usedBytes` equals the sum over live entries of key length plus value
size. -/
theorem C4_usedBytes_is_exact_size_sum (opts : Options) (ops : List Op) :
    ∃ s', runOps ops (newLRUCache opts) = some s' ∧
      s'.usedBytes = LruCache.sizeSum s'.lru := by
  obtain ⟨s', h, hwf⟩ := runOps_wf ops (newLRUCache opts) (newLRUCache_wf opts)
  exact ⟨s', h, hwf.2⟩

/-- C5, counterexample: `SetWithExpiration("x", v, 50)` then `Get` at
time 60 returns `(nil, false)` — but the removal is spawned as a separate
goroutine (`go c.Delete(key)`), so immediately after that Get call
returns the entry is still in every index and `Len() = 1`, not 0. -/
theorem C5_counterexample_len_after_expired_get :
    LruCache.SetWithExpiration 0 "x" (some ⟨7, 3⟩) 50
        (newLRUCache ⟨0, 16, 512, 256, 60000000000, false⟩) =
      some (⟨[⟨"x", ⟨7, 3⟩⟩], [("x", 50)], 0, 4, false⟩, []) ∧
    LruCache.Get 60 "x" ⟨[⟨"x", ⟨7, 3⟩⟩], [("x", 50)], 0, 4, false⟩ =
      ⟨none, false, ⟨[⟨"x", ⟨7, 3⟩⟩], [("x", 50)], 0, 4, false⟩, some "x"⟩ ∧
    LruCache.Len
        (LruCache.Get 60 "x"
          ⟨[⟨"x", ⟨7, 3⟩⟩], [("x", 50)], 0, 4, false⟩).state = 1 :=
  ⟨by decide, by decide, by decide⟩

/-- C5, amended: in the TTL scenario the Get before expiry returns
`(v, true)`; the Get after expiry returns `(nil, false)` and spawns an
asynchronous `Delete("x")`, and only once that background delete has run
does `Len()` reach 0. -/
theorem C5_expired_get_schedules_async_delete :
    LruCache.SetWithExpiration 0 "x" (some ⟨7, 3⟩) 50
        (newLRUCache ⟨0, 16, 512, 256, 60000000000, false⟩) =
      some (⟨[⟨"x", ⟨7, 3⟩⟩], [("x", 50)], 0, 4, false⟩, []) ∧
    LruCache.Get 10 "x" ⟨[⟨"x", ⟨7, 3⟩⟩], [("x", 50)], 0, 4, false⟩ =
      ⟨some ⟨7, 3⟩, true, ⟨[⟨"x", ⟨7, 3⟩⟩], [("x", 50)], 0, 4, false⟩,
        none⟩ ∧
    (LruCache.Get 60 "x"
        ⟨[⟨"x", ⟨7, 3⟩⟩], [("x", 50)], 0, 4, false⟩).pendingDelete =
      some "x" ∧
    LruCache.Len
        (LruCache.Delete "x"
          (LruCache.Get 60 "x"
            ⟨[⟨"x", ⟨7, 3⟩⟩], [("x", 50)], 0, 4, false⟩).state).1 = 0 :=
  ⟨by decide, by decide, by decide, by decide⟩

/-- C6: for every cache state, Clear leaves `Len() = 0` and
`UsedBytes() = 0`, and the eviction callback log is exactly one
invocation per entry that was live immediately before the call when a
callback is configured, and empty otherwise. -/
theorem C6_clear_resets_and_reports_every_entry (s : CacheState) :
    LruCache.Len (LruCache.Clear s).1 = 0 ∧
    (LruCache.Clear s).1.usedBytes = 0 ∧
    (LruCache.Clear s).2 =
      (if s.hasOnEvicted then s.lru.map (fun e => (e.key, e.value)) else []) :=
  ⟨rfl, rfl, rfl⟩

/-- C7: deleting a key absent from the Key Index returns false, leaves
the whole state (recency list, expiration map, counters) unchanged, and
performs no callback invocation. -/
theorem C7_delete_absent_is_noop (s : CacheState) (key : String)
    (h : LruCache.findEntry key s.lru = none) :
    LruCache.Delete key s = (s, false, []) := by
  unfold LruCache.Delete
  rw [h]

/-- Witness for C7 at a concrete input: a cache holding only "b", with a
callback configured, deleting "a". -/
theorem C7_delete_absent_is_noop_witness :
    LruCache.Delete "a" ⟨[⟨"b", ⟨1, 2⟩⟩], [("b", 9)], 5, 3, true⟩ =
      (⟨[⟨"b", ⟨1, 2⟩⟩], [("b", 9)], 5, 3, true⟩, false, []) :=
  C7_delete_absent_is_noop _ "a" (by decide)

/-- C8: the claim says the factory returns a usable non-nil engine for
the LRU policy tag.  In `src/store/store.go` every branch of `NewStore` —
including `case LRU` — has its constructor call commented out and returns
`nil`, so the factory yields no engine for any configuration. -/
theorem C8_newStore_lru_returns_nil (opts : Options) :
    NewStore CacheType.LRU opts = none :=
  rfl

/-- C9: `GetWithExpiration` on a key whose expiry is strictly past
returns `(nil, 0, false)` and leaves the state completely unchanged — the
entry stays in every index, nothing is scheduled and no callback runs —
whereas `Get` on the same state also leaves the state unchanged but does
spawn the asynchronous delete of that key. -/
theorem C9_getWithExpiration_expired_is_pure (s : CacheState) (key : String)
    (now t : Int) (e : Entry)
    (hfind : LruCache.findEntry key s.lru = some e)
    (hexp : s.expires.lookup key = some t) (ht : now > t) :
    LruCache.GetWithExpiration now key s = ((none, 0, false), s) ∧
    (LruCache.Get now key s).state = s ∧
    (LruCache.Get now key s).pendingDelete = some key := by
  simp only [LruCache.GetWithExpiration, LruCache.Get, hfind, hexp, if_pos ht]
  exact ⟨trivial, trivial, trivial⟩

/-- Witness for C9 at a concrete input: "x" expired at time 5, read at
time 10, with a callback configured. -/
theorem C9_getWithExpiration_expired_is_pure_witness :
    LruCache.GetWithExpiration 10 "x"
        ⟨[⟨"x", ⟨7, 3⟩⟩], [("x", 5)], 0, 4, true⟩ =
      ((none, 0, false), ⟨[⟨"x", ⟨7, 3⟩⟩], [("x", 5)], 0, 4, true⟩) ∧
    (LruCache.Get 10 "x" ⟨[⟨"x", ⟨7, 3⟩⟩], [("x", 5)], 0, 4, true⟩).state =
      ⟨[⟨"x", ⟨7, 3⟩⟩], [("x", 5)], 0, 4, true⟩ ∧
    (LruCache.Get 10 "x"
        ⟨[⟨"x", ⟨7, 3⟩⟩], [("x", 5)], 0, 4, true⟩).pendingDelete = some "x" :=
  C9_getWithExpiration_expired_is_pure _ "x" 10 5 ⟨"x", ⟨7, 3⟩⟩ (by decide)
    (by decide) (by decide)

/-- C10: `UpdateExpiration(key, d)` with non-positive `d` on a present
key deletes the key's expiration entry (the key becomes non-expiring) and
returns true while leaving the recency list (hence value and position)
and the byte counters unchanged; on an absent key it returns false and
changes nothing. -/
theorem C10_updateExpiration_nonpositive_clears_ttl (s : CacheState)
    (key : String) (now d : Int) :
    (LruCache.findEntry key s.lru ≠ none → d ≤ 0 →
      (LruCache.UpdateExpiration now key d s).2 = true ∧
      (LruCache.UpdateExpiration now key d s).1.lru = s.lru ∧
      (LruCache.UpdateExpiration now key d s).1.usedBytes = s.usedBytes ∧
      (LruCache.UpdateExpiration now key d s).1.maxBytes = s.maxBytes ∧
      (LruCache.UpdateExpiration now key d s).1.expires.lookup key = none) ∧
    (LruCache.findEntry key s.lru = none →
      LruCache.UpdateExpiration now key d s = (s, false)) := by
  constructor
  · intro hp hd
    cases hfind : LruCache.findEntry key s.lru with
    | none => exact absurd hfind hp
    | some e =>
      have hneg : ¬ d > 0 := by omega
      unfold LruCache.UpdateExpiration
      rw [hfind, if_neg hneg]
      exact ⟨rfl, rfl, rfl, rfl,
        LruCache.lookup_filter_self_none key s.expires⟩
  · intro hfind
    unfold LruCache.UpdateExpiration
    rw [hfind]

/-- Witness for C10 at concrete inputs: present key "x" (TTL cleared,
true returned, value/recency/bytes untouched) and absent key "y" (false,
no change). -/
theorem C10_updateExpiration_nonpositive_clears_ttl_witness :
    ((LruCache.UpdateExpiration 7 "x" 0
        ⟨[⟨"x", ⟨7, 3⟩⟩], [("x", 5)], 0, 4, false⟩).2 = true ∧
      (LruCache.UpdateExpiration 7 "x" 0
        ⟨[⟨"x", ⟨7, 3⟩⟩], [("x", 5)], 0, 4, false⟩).1.lru =
        (⟨[⟨"x", ⟨7, 3⟩⟩], [("x", 5)], 0, 4, false⟩ : CacheState).lru ∧
      (LruCache.UpdateExpiration 7 "x" 0
        ⟨[⟨"x", ⟨7, 3⟩⟩], [("x", 5)], 0, 4, false⟩).1.usedBytes =
        (⟨[⟨"x", ⟨7, 3⟩⟩], [("x", 5)], 0, 4, false⟩ : CacheState).usedBytes ∧
      (LruCache.UpdateExpiration 7 "x" 0
        ⟨[⟨"x", ⟨7, 3⟩⟩], [("x", 5)], 0, 4, false⟩).1.maxBytes =
        (⟨[⟨"x", ⟨7, 3⟩⟩], [("x", 5)], 0, 4, false⟩ : CacheState).maxBytes ∧
      (LruCache.UpdateExpiration 7 "x" 0
        ⟨[⟨"x", ⟨7, 3⟩⟩], [("x", 5)], 0, 4, false⟩).1.expires.lookup "x" =
        none) ∧
    LruCache.UpdateExpiration 7 "y" 0
        ⟨[⟨"x", ⟨7, 3⟩⟩], [("x", 5)], 0, 4, false⟩ =
      (⟨[⟨"x", ⟨7, 3⟩⟩], [("x", 5)], 0, 4, false⟩, false) :=
  ⟨(C10_updateExpiration_nonpositive_clears_ttl
      ⟨[⟨"x", ⟨7, 3⟩⟩], [("x", 5)], 0, 4, false⟩ "x" 7 0).1
      (by decide) (by decide),
    (C10_updateExpiration_nonpositive_clears_ttl
      ⟨[⟨"x", ⟨7, 3⟩⟩], [("x", 5)], 0, 4, false⟩ "y" 7 0).2 (by decide)⟩
